import Mathlib

/- Shallow embedding of src/daemon/repo-mgr.c (seafile daemon repository manager).
   External collaborators (commit store, branch store, sqlite, filesystem, crypto
   primitive) are modelled as explicit state threaded through the functions;
   external calls that can fail take a Bool oracle describing the call's outcome,
   and values computed outside this file (uuid generation, commit-id hashing,
   the derived encryption key) are passed in as parameters. -/

namespace Seafile

structure SeafBranch where
  name : String
  commit_id : String
  deriving DecidableEq, Repr

structure SeafCommit where
  commit_id : String
  repo_id : String
  root_id : String
  creator_name : String
  creator_id : String
  desc : String
  parent_id : Option String
  second_parent_id : Option String
  repo_name : String
  repo_desc : String
  encrypted : Bool
  enc_version : Nat
  magic : Option String
  no_local_history : Bool
  deriving DecidableEq, Repr

structure SeafRepo where
  id : String
  name : String
  desc : String
  encrypted : Bool
  enc_version : Nat
  magic : String
  no_local_history : Bool
  head : Option SeafBranch
  email : Option String
  delete_pending : Bool
  deriving DecidableEq, Repr

/- seaf_commit_new lives in commit-mgr.c (outside this file); it fills in the
   given fields, leaves both parent ids NULL, and computes the commit id by
   hashing the serialized fields.  The hash is passed in as `cid`. -/
def seaf_commit_new (cid repo_id root_id creator_name creator_id desc : String) :
    SeafCommit :=
  { commit_id := cid, repo_id := repo_id, root_id := root_id,
    creator_name := creator_name, creator_id := creator_id, desc := desc,
    parent_id := none, second_parent_id := none,
    repo_name := "", repo_desc := "", encrypted := false, enc_version := 0,
    magic := none, no_local_history := false }

/- repo-mgr.c:212-224. -/
def seaf_repo_to_commit (repo : SeafRepo) (commit : SeafCommit) : SeafCommit :=
  let c1 := { commit with repo_name := repo.name, repo_desc := repo.desc,
                          encrypted := repo.encrypted }
  let c2 :=
    if c1.encrypted then
      { c1 with enc_version := repo.enc_version,
                magic := if repo.enc_version ≥ 1 then some repo.magic else c1.magic }
    else c1
  { c2 with no_local_history := repo.no_local_history }

/- The commit store and branch store (commit-mgr.c / branch-mgr.c, outside this
   file), reduced to the state commit_tree reads and writes: the set of stored
   commits and the table of (repo id, branch name, commit id) rows. -/
structure Stores where
  commits : List SeafCommit
  branches : List (String × String × String)
  deriving DecidableEq, Repr

def branch_get (branches : List (String × String × String))
    (repo_id name : String) : Option String :=
  (branches.find? (fun t => t.1 == repo_id && t.2.1 == name)).map (fun t => t.2.2)

def branch_update (branches : List (String × String × String))
    (repo_id name cid : String) : List (String × String × String) :=
  (repo_id, name, cid) :: branches.filter (fun t => !(t.1 == repo_id && t.2.1 == name))

inductive CommitTreeErr where
  | noMasterBranch
  | storeError
  deriving DecidableEq, Repr

/- Result of commit_tree: `ok` returns the new store/repo state and the new
   commit id; `err` carries the state as the C code left it (on both error
   returns nothing has been written); `nullHead` marks the null dereference of
   repo->head at repo-mgr.c:1056, reachable only when head is NULL and the
   commit store write succeeded. -/
inductive CTRes where
  | ok (st : Stores) (repo : SeafRepo) (commit_id : String)
  | err (e : CommitTreeErr) (st : Stores) (repo : SeafRepo)
  | nullHead
  deriving DecidableEq, Repr

/- repo-mgr.c:1023-1025: creator is repo->email if set, else the session's
   user name. -/
def commit_creator (repo : SeafRepo) (user_name : String) : String :=
  match repo.email with
  | some e => e
  | none => user_name

/- repo-mgr.c:1022-1051: the commit object commit_tree assembles before the
   store write; `sp` is the second-parent id (filled from the master branch
   when unmerged). -/
def built_commit (repo : SeafRepo) (root_id desc : String) (unmerged : Bool)
    (cid user_name session_id : String) (sp : Option String) : SeafCommit :=
  seaf_repo_to_commit repo
    { seaf_commit_new cid repo.id root_id (commit_creator repo user_name)
        session_id (if unmerged then "Auto merge by seafile system" else desc) with
      parent_id := repo.head.map SeafBranch.commit_id,
      second_parent_id := sp }

/- repo-mgr.c:1053-1062: write the commit through the commit store, then
   advance the head branch to the new commit id and persist the branch row.
   On a failed store write the function returns -1 before touching the
   branch. -/
def commit_tree_write (st : Stores) (repo : SeafRepo) (c : SeafCommit)
    (addCommitOk : Bool) : CTRes :=
  if addCommitOk then
    match repo.head with
    | none => CTRes.nullHead
    | some h =>
        CTRes.ok
          { commits := c :: st.commits,
            branches := branch_update st.branches repo.id h.name c.commit_id }
          { repo with head := some { h with commit_id := c.commit_id } }
          c.commit_id
  else CTRes.err CommitTreeErr.storeError st repo

/- repo-mgr.c:1012-1063.  `addCommitOk` is the outcome of
   seaf_commit_manager_add_commit (the commit store write); `user_name` and
   `session_id` stand for seaf->session->base.user_name / .id. -/
def commit_tree (st : Stores) (repo : SeafRepo) (root_id desc : String)
    (unmerged : Bool) (cid user_name session_id : String)
    (addCommitOk : Bool) : CTRes :=
  if unmerged then
    match branch_get st.branches repo.id "master" with
    | none => CTRes.err CommitTreeErr.noMasterBranch st repo
    | some mcid =>
        commit_tree_write st repo
          (built_commit repo root_id desc unmerged cid user_name session_id
            (some mcid)) addCommitOk
  else
    commit_tree_write st repo
      (built_commit repo root_id desc unmerged cid user_name session_id none)
      addCommitOk

lemma seaf_repo_to_commit_commit_id (r : SeafRepo) (c : SeafCommit) :
    (seaf_repo_to_commit r c).commit_id = c.commit_id := by
  simp only [seaf_repo_to_commit]
  split <;> rfl

lemma seaf_repo_to_commit_parent_id (r : SeafRepo) (c : SeafCommit) :
    (seaf_repo_to_commit r c).parent_id = c.parent_id := by
  simp only [seaf_repo_to_commit]
  split <;> rfl

lemma seaf_repo_to_commit_second_parent_id (r : SeafRepo) (c : SeafCommit) :
    (seaf_repo_to_commit r c).second_parent_id = c.second_parent_id := by
  simp only [seaf_repo_to_commit]
  split <;> rfl

lemma built_commit_commit_id (repo : SeafRepo) (root_id desc : String)
    (unmerged : Bool) (cid user_name session_id : String) (sp : Option String) :
    (built_commit repo root_id desc unmerged cid user_name session_id sp).commit_id
      = cid := by
  simp [built_commit, seaf_repo_to_commit_commit_id, seaf_commit_new]

lemma built_commit_parent_id (repo : SeafRepo) (root_id desc : String)
    (unmerged : Bool) (cid user_name session_id : String) (sp : Option String) :
    (built_commit repo root_id desc unmerged cid user_name session_id sp).parent_id
      = repo.head.map SeafBranch.commit_id := by
  simp [built_commit, seaf_repo_to_commit_parent_id]

lemma built_commit_second_parent_id (repo : SeafRepo) (root_id desc : String)
    (unmerged : Bool) (cid user_name session_id : String) (sp : Option String) :
    (built_commit repo root_id desc unmerged cid user_name
        session_id sp).second_parent_id = sp := by
  simp [built_commit, seaf_repo_to_commit_second_parent_id]

lemma branch_get_update (bs : List (String × String × String)) (rid n c : String) :
    branch_get (branch_update bs rid n c) rid n = some c := by
  simp [branch_get, branch_update, List.find?]

/-- C1: if the commit store write fails, commit_tree returns failure with the
stores and the repository untouched (the head branch is not advanced); the
branch row is set to the new commit id only on the success path, i.e. only
after the commit store write succeeded. -/
theorem commit_tree_branch_advance_iff_store_ok
    (st : Stores) (repo : SeafRepo) (root desc : String) (unmerged : Bool)
    (cid uname sid : String) :
    (commit_tree st repo root desc unmerged cid uname sid false =
        CTRes.err CommitTreeErr.storeError st repo ∨
     commit_tree st repo root desc unmerged cid uname sid false =
        CTRes.err CommitTreeErr.noMasterBranch st repo) ∧
    (∀ addOk st' repo' cid',
       commit_tree st repo root desc unmerged cid uname sid addOk =
          CTRes.ok st' repo' cid' →
       addOk = true ∧ ∃ h, repo.head = some h ∧
         branch_get st'.branches repo.id h.name = some cid' ∧
         repo'.head = some { h with commit_id := cid' }) := by
  constructor
  · cases hu : unmerged
    · left
      simp [commit_tree, commit_tree_write, hu]
    · cases hb : branch_get st.branches repo.id "master"
      · right
        simp [commit_tree, commit_tree_write, hu, hb]
      · left
        simp [commit_tree, commit_tree_write, hu, hb]
  · intro addOk st' repo' cid' hok
    cases haddOk : addOk
    · subst haddOk
      cases hu : unmerged
      · simp [commit_tree, commit_tree_write, hu] at hok
      · cases hb : branch_get st.branches repo.id "master"
        · simp [commit_tree, hu, hb] at hok
        · simp [commit_tree, commit_tree_write, hu, hb] at hok
    · subst haddOk
      refine ⟨rfl, ?_⟩
      cases hh : repo.head with
      | none =>
          cases hu : unmerged
          · simp [commit_tree, commit_tree_write, hu, hh] at hok
          · cases hb : branch_get st.branches repo.id "master"
            · simp [commit_tree, hu, hb] at hok
            · simp [commit_tree, commit_tree_write, hu, hb, hh] at hok
      | some h =>
          refine ⟨h, rfl, ?_⟩
          cases hu : unmerged
          · simp [commit_tree, commit_tree_write, hu, hh] at hok
            obtain ⟨hst, hrepo, hcid⟩ := hok
            subst hst hrepo
            simp [← hcid, built_commit_commit_id, branch_get_update]
          · cases hb : branch_get st.branches repo.id "master"
            · simp [commit_tree, hu, hb] at hok
            · simp [commit_tree, commit_tree_write, hu, hb, hh] at hok
              obtain ⟨hst, hrepo, hcid⟩ := hok
              subst hst hrepo
              simp [← hcid, built_commit_commit_id, branch_get_update]

/- Sample state used by the witnesses below. -/
def stW : Stores := { commits := [], branches := [("r1", "master", "m0")] }

def repoW : SeafRepo :=
  { id := "r1", name := "n", desc := "d", encrypted := false, enc_version := 0,
    magic := "", no_local_history := false,
    head := some { name := "local", commit_id := "c0" },
    email := none, delete_pending := false }

def commitW : SeafCommit :=
  { commit_id := "c1id", repo_id := "r1", root_id := "root",
    creator_name := "u", creator_id := "s", desc := "msg",
    parent_id := some "c0", second_parent_id := none,
    repo_name := "n", repo_desc := "d", encrypted := false, enc_version := 0,
    magic := none, no_local_history := false }

def stW' : Stores :=
  { commits := [commitW],
    branches := [("r1", "local", "c1id"), ("r1", "master", "m0")] }

def repoW' : SeafRepo :=
  { repoW with head := some { name := "local", commit_id := "c1id" } }

theorem commit_tree_branch_advance_iff_store_ok_witness :
    true = true ∧ ∃ h, repoW.head = some h ∧
      branch_get stW'.branches repoW.id h.name = some "c1id" ∧
      repoW'.head = some { h with commit_id := "c1id" } :=
  (commit_tree_branch_advance_iff_store_ok stW repoW "root" "msg" false
      "c1id" "u" "s").2 true stW' repoW' "c1id" (by decide)

/-- C4: every commit commit_tree builds has as first parent the current head
commit of the repository; when `unmerged` is set its second parent is the
commit the `master` branch points to, and when `unmerged` is set but `master`
is absent the operation fails at the no-master-branch check with nothing
written (no commit stored, branch rows untouched). -/
theorem commit_tree_parents
    (st : Stores) (repo : SeafRepo) (root desc cid uname sid : String)
    (addOk : Bool) :
    (∀ st' repo' cid',
       commit_tree st repo root desc true cid uname sid addOk =
          CTRes.ok st' repo' cid' →
       ∃ c, st'.commits = c :: st.commits ∧ c.commit_id = cid' ∧
         c.parent_id = repo.head.map (fun b => b.commit_id) ∧
         c.second_parent_id = branch_get st.branches repo.id "master") ∧
    (∀ st' repo' cid',
       commit_tree st repo root desc false cid uname sid addOk =
          CTRes.ok st' repo' cid' →
       ∃ c, st'.commits = c :: st.commits ∧ c.commit_id = cid' ∧
         c.parent_id = repo.head.map (fun b => b.commit_id) ∧
         c.second_parent_id = none) ∧
    (branch_get st.branches repo.id "master" = none →
       commit_tree st repo root desc true cid uname sid addOk =
          CTRes.err CommitTreeErr.noMasterBranch st repo) := by
  refine ⟨?_, ?_, ?_⟩
  · intro st' repo' cid' hok
    cases hb : branch_get st.branches repo.id "master" with
    | none => simp [commit_tree, hb] at hok
    | some mcid =>
      cases haddOk : addOk
      · subst haddOk
        simp [commit_tree, commit_tree_write, hb] at hok
      · subst haddOk
        cases hh : repo.head
        · simp [commit_tree, commit_tree_write, hb, hh] at hok
        · simp [commit_tree, commit_tree_write, hb, hh] at hok
          obtain ⟨hst, _, hcid⟩ := hok
          refine ⟨built_commit repo root desc true cid uname sid
            (some mcid), ?_, ?_, ?_, ?_⟩
          · exact (congrArg Stores.commits hst).symm
          · rw [← hcid, built_commit_commit_id]
          · simp [built_commit_parent_id, hh]
          · simp [built_commit_second_parent_id, hb]
  · intro st' repo' cid' hok
    cases haddOk : addOk
    · subst haddOk
      simp [commit_tree, commit_tree_write] at hok
    · subst haddOk
      cases hh : repo.head
      · simp [commit_tree, commit_tree_write, hh] at hok
      · simp [commit_tree, commit_tree_write, hh] at hok
        obtain ⟨hst, _, hcid⟩ := hok
        refine ⟨built_commit repo root desc false cid uname sid none,
          ?_, ?_, ?_, ?_⟩
        · exact (congrArg Stores.commits hst).symm
        · rw [← hcid, built_commit_commit_id]
        · simp [built_commit_parent_id, hh]
        · simp [built_commit_second_parent_id]
  · intro hb
    simp [commit_tree, hb]

def stW2 : Stores := { commits := [], branches := [] }

theorem commit_tree_parents_witness :
    commit_tree stW2 repoW "root" "msg" true "c1id" "u" "s" true =
      CTRes.err CommitTreeErr.noMasterBranch stW2 repoW :=
  (commit_tree_parents stW2 repoW "root" "msg" "c1id" "u" "s" true).2.2 (by decide)

/- diff-simple.h: the status tags a DiffEntry can carry. -/
inductive DiffStatus where
  | added
  | deleted
  | renamed
  | modified
  | dirAdded
  | dirDeleted
  deriving DecidableEq, Repr

structure DiffEntry where
  status : DiffStatus
  name : String
  deriving DecidableEq, Repr

/- repo-mgr.c:853-861: basename = text after the last '/', or the whole path
   when it has no slash. -/
def get_basename (path : String) : String :=
  (path.splitOn "/").getLastD path

/- One counter and one remembered first basename per status
   (repo-mgr.c:868-872). -/
structure DescCounts where
  n_new : Nat
  n_removed : Nat
  n_renamed : Nat
  n_modified : Nat
  n_new_dir : Nat
  n_removed_dir : Nat
  new_file : String
  removed_file : String
  renamed_file : String
  modified_file : String
  new_dir : String
  removed_dir : String
  deriving DecidableEq, Repr

def DescCounts.init : DescCounts :=
  { n_new := 0, n_removed := 0, n_renamed := 0, n_modified := 0,
    n_new_dir := 0, n_removed_dir := 0,
    new_file := "", removed_file := "", renamed_file := "",
    modified_file := "", new_dir := "", removed_dir := "" }

def count_entry (acc : DescCounts) (de : DiffEntry) : DescCounts :=
  match de.status with
  | DiffStatus.added =>
      { acc with
        new_file := if acc.n_new = 0 then get_basename de.name else acc.new_file,
        n_new := acc.n_new + 1 }
  | DiffStatus.deleted =>
      { acc with
        removed_file := if acc.n_removed = 0 then get_basename de.name
                        else acc.removed_file,
        n_removed := acc.n_removed + 1 }
  | DiffStatus.renamed =>
      { acc with
        renamed_file := if acc.n_renamed = 0 then get_basename de.name
                        else acc.renamed_file,
        n_renamed := acc.n_renamed + 1 }
  | DiffStatus.modified =>
      { acc with
        modified_file := if acc.n_modified = 0 then get_basename de.name
                         else acc.modified_file,
        n_modified := acc.n_modified + 1 }
  | DiffStatus.dirAdded =>
      { acc with
        new_dir := if acc.n_new_dir = 0 then get_basename de.name else acc.new_dir,
        n_new_dir := acc.n_new_dir + 1 }
  | DiffStatus.dirDeleted =>
      { acc with
        removed_dir := if acc.n_removed_dir = 0 then get_basename de.name
                       else acc.removed_dir,
        n_removed_dir := acc.n_removed_dir + 1 }

/- repo-mgr.c:863-953: returns NULL for an empty result list, otherwise builds
   the human-readable per-status summary lines. -/
def status_to_description (results : List DiffEntry) : Option String :=
  match results with
  | [] => none
  | _ =>
      let a := results.foldl count_entry DescCounts.init
      let desc :=
        (if a.n_new = 1 then "Added \"" ++ a.new_file ++ "\".\n"
         else if a.n_new > 1 then
           "Added \"" ++ a.new_file ++ "\" and " ++ toString (a.n_new - 1) ++
             " more files.\n"
         else "") ++
        (if a.n_removed = 1 then "Deleted \"" ++ a.removed_file ++ "\".\n"
         else if a.n_removed > 1 then
           "Deleted \"" ++ a.removed_file ++ "\" and " ++
             toString (a.n_removed - 1) ++ " more files.\n"
         else "") ++
        (if a.n_renamed = 1 then "Renamed \"" ++ a.renamed_file ++ "\".\n"
         else if a.n_renamed > 1 then
           "Renamed \"" ++ a.renamed_file ++ "\" and " ++
             toString (a.n_renamed - 1) ++ " more files.\n"
         else "") ++
        (if a.n_modified = 1 then "Modified \"" ++ a.modified_file ++ "\".\n"
         else if a.n_modified > 1 then
           "Modified \"" ++ a.modified_file ++ "\" and " ++
             toString (a.n_modified - 1) ++ " more files.\n"
         else "") ++
        (if a.n_new_dir = 1 then "Added directory \"" ++ a.new_dir ++ "\".\n"
         else if a.n_new_dir > 1 then
           "Added \"" ++ a.new_dir ++ "\" and " ++ toString (a.n_new_dir - 1) ++
             " more directories.\n"
         else "") ++
        (if a.n_removed_dir = 1 then "Removed directory \"" ++ a.removed_dir ++ "\".\n"
         else if a.n_removed_dir > 1 then
           "Removed \"" ++ a.removed_dir ++ "\" and " ++
             toString (a.n_removed_dir - 1) ++ " more directories.\n"
         else "")
      some desc

/- repo-mgr.c:963-985.  wt_status_collect_changes_index,
   diff_resolve_empty_dirs and diff_resolve_renames live in status.c /
   diff-simple.c (outside this file); their combined output — the resolved
   index-vs-head change list — is passed in as `results`. -/
def gen_commit_description (results : List DiffEntry) : Option String :=
  status_to_description results

/- repo-mgr.c:148-162: requires a bound head branch and a valid worktree
   directory; the filesystem checks are summarized by `worktree_ok`. -/
def check_worktree_common (repo : SeafRepo) (worktree_ok : Bool) : Bool :=
  repo.head.isSome && worktree_ok

/- repo-mgr.c:1065-1127.  External inputs: `worktree_ok` (filesystem state of
   the worktree), `indexOk` (outcome of read_index_from), `results` (the
   resolved index-vs-head diff used for description generation),
   `cacheTreeOk` (outcome of cache_tree_update), `root_id` (the cache tree's
   root hash), `cid` (the hash seaf_commit_new computes), `user_name` /
   `session_id` (session identity) and `addCommitOk` (commit store write
   outcome).  Returns the optional new commit id together with the store and
   repository state left behind. -/
def seaf_repo_index_commit (st : Stores) (repo : SeafRepo) (desc : String)
    (unmerged : Bool) (worktree_ok indexOk : Bool) (results : List DiffEntry)
    (cacheTreeOk : Bool) (root_id cid user_name session_id : String)
    (addCommitOk : Bool) : Option String × Stores × SeafRepo :=
  if check_worktree_common repo worktree_ok = false then (none, st, repo)
  else if indexOk = false then (none, st, repo)
  else
    let my_desc? : Option String :=
      if unmerged = false && desc == "" then gen_commit_description results
      else some desc
    match my_desc? with
    | none => (none, st, repo)
    | some my_desc =>
        if cacheTreeOk = false then (none, st, repo)
        else
          match commit_tree st repo root_id my_desc unmerged cid user_name
              session_id addCommitOk with
          | CTRes.ok st' repo' cid' => (some cid', st', repo')
          | CTRes.err _ st' repo' => (none, st', repo')
          | CTRes.nullHead => (none, st, repo)

/-- C3: seaf_repo_index_commit called with an empty description, the unmerged
flag clear, and an empty (resolved) index-vs-head diff is a no-op: it returns
NULL (no commit id) and leaves the commit store, the branch rows and the
repository head exactly as they were, whatever the other external outcomes
are. -/
theorem index_commit_empty_desc_empty_diff_noop
    (st : Stores) (repo : SeafRepo) (worktree_ok indexOk cacheTreeOk : Bool)
    (root_id cid user_name session_id : String) (addCommitOk : Bool) :
    seaf_repo_index_commit st repo "" false worktree_ok indexOk []
      cacheTreeOk root_id cid user_name session_id addCommitOk
      = (none, st, repo) := by
  cases hw : check_worktree_common repo worktree_ok
  · simp [seaf_repo_index_commit, hw]
  · cases hi : indexOk
    · simp [seaf_repo_index_commit, hw, hi]
    · simp [seaf_repo_index_commit, hw, hi, gen_commit_description,
        status_to_description]

/- The in-memory registry: repo-mgr.c keeps repositories in an avl tree
   ordered by id; the ordered sequence of its nodes is modelled as a list. -/
structure SeafRepoManager where
  repo_tree : List SeafRepo
  deriving DecidableEq, Repr

/-- Modelled from the spec: the vendored avl library (avl/avl.h, not part of
this file) keeps an ordered map keyed by the full repo id; avl_search returns
the node whose id equals the key. -/
def avl_search (repos : List SeafRepo) (id : String) : Option SeafRepo :=
  repos.find? (fun r => r.id == id)

/- strcmp byte order on the two ids, as the registry's compare callback uses:
   true when `a` sorts at or before `b`. -/
def strcmp_le : List Char → List Char → Bool
  | [], _ => true
  | _ :: _, [] => false
  | a :: as, b :: bs => if a = b then strcmp_le as bs else decide (a < b)

/-- Modelled from the spec: avl_search_closest returns the node closest to
the key — here the first node whose id is ≥ the key in strcmp order, or the
last node when every id is smaller.  It yields no node only when the tree is
empty. -/
def avl_search_closest (repos : List SeafRepo) (id : String) : Option SeafRepo :=
  match repos.find? (fun r => strcmp_le id.toList r.id.toList) with
  | some r => some r
  | none => repos.getLast?

/- repo-mgr.c:2005-2030: ids of 37 or more characters are rejected before the
   tree is consulted; a found repo is returned only when it is not
   delete-pending. -/
def seaf_repo_manager_get_repo (mgr : SeafRepoManager) (id : String) :
    Option SeafRepo :=
  if 37 ≤ id.length then none
  else
    match avl_search mgr.repo_tree id with
    | some r => if r.delete_pending then none else some r
    | none => none

/- repo-mgr.c:2032-2051: same length guard, then a closest-node search and a
   strncmp prefix check — note: no delete_pending check. -/
def seaf_repo_manager_get_repo_prefix (mgr : SeafRepoManager) (id : String) :
    Option SeafRepo :=
  if 37 ≤ id.length then none
  else
    match avl_search_closest mgr.repo_tree id with
    | some r => if id.toList.isPrefixOf r.id.toList then some r else none
    | none => none

/- repo-mgr.c:2053-2074. -/
def seaf_repo_manager_repo_exists (mgr : SeafRepoManager) (id : String) : Bool :=
  match avl_search mgr.repo_tree id with
  | some r => !r.delete_pending
  | none => false

/- repo-mgr.c:2076-2088: returns TRUE as soon as the closest-node search
   yields any node — note: neither the prefix nor delete_pending is
   checked. -/
def seaf_repo_manager_repo_exists_prefix (mgr : SeafRepoManager) (id : String) :
    Bool :=
  match avl_search_closest mgr.repo_tree id with
  | some _ => true
  | none => false

/- repo-mgr.c:2885-2916: walks the tree head to tail prepending every repo
   that is not delete-pending; `start` and `limit` are accepted but unused in
   the source. -/
def seaf_repo_manager_get_repo_list (mgr : SeafRepoManager)
    (_start _limit : Int) : List SeafRepo :=
  (mgr.repo_tree.filter (fun r => !r.delete_pending)).reverse

/- A delete-pending repository with a full 36-character id, alone in the
   registry. -/
def repoC2 : SeafRepo :=
  { id := "aaaaaaaa-aaaa-aaaa-aaaa-aaaaaaaaaaaa", name := "n", desc := "d",
    encrypted := false, enc_version := 0, magic := "",
    no_local_history := false, head := none, email := none,
    delete_pending := true }

def mgrC2 : SeafRepoManager := { repo_tree := [repoC2] }

/-- C2 counterexample: with a single delete-pending repository in the
registry, seaf_repo_manager_get_repo_prefix returns that repository and
seaf_repo_manager_repo_exists_prefix returns TRUE — neither behaves as if the
repository were absent, contradicting the claim that every lookup hides
delete-pending repositories. -/
theorem get_repo_prefix_returns_delete_pending :
    repoC2.delete_pending = true ∧
     seaf_repo_manager_get_repo_prefix mgrC2
        "aaaaaaaa-aaaa-aaaa-aaaa-aaaaaaaaaaaa" = some repoC2 ∧
     seaf_repo_manager_repo_exists_prefix mgrC2
        "aaaaaaaa-aaaa-aaaa-aaaa-aaaaaaaaaaaa" = true := by
  refine ⟨rfl, ?_, rfl⟩
  decide

/-- C2 (amended): delete-pending repositories are hidden from
seaf_repo_manager_get_repo, seaf_repo_manager_repo_exists and
seaf_repo_manager_get_repo_list, but the two prefix lookups do not filter
them: seaf_repo_manager_get_repo_prefix returns whatever repository the
closest-node search finds under the prefix check regardless of its
delete-pending flag, and seaf_repo_manager_repo_exists_prefix returns TRUE
for every id whenever the registry is non-empty. -/
theorem delete_pending_hidden_except_prefix_lookups :
    (∀ (mgr : SeafRepoManager) (id : String) (r : SeafRepo),
      avl_search mgr.repo_tree id = some r → r.delete_pending = true →
        seaf_repo_manager_get_repo mgr id = none ∧
        seaf_repo_manager_repo_exists mgr id = false) ∧
    (∀ (mgr : SeafRepoManager) (r : SeafRepo) (s l : Int),
      r.delete_pending = true →
        r ∉ seaf_repo_manager_get_repo_list mgr s l) ∧
    (∀ (mgr : SeafRepoManager) (id : String) (r : SeafRepo),
      id.length ≤ 36 → avl_search_closest mgr.repo_tree id = some r →
        id.toList.isPrefixOf r.id.toList = true →
         seaf_repo_manager_get_repo_prefix mgr id = some r) ∧
    (∀ (mgr : SeafRepoManager) (id : String),
      mgr.repo_tree ≠ [] →
         seaf_repo_manager_repo_exists_prefix mgr id = true) := by
  refine ⟨?_, ?_, ?_, ?_⟩
  · intro mgr id r hfind hpend
    constructor
    · unfold seaf_repo_manager_get_repo
      split
      · rfl
      · rw [hfind]
        simp [hpend]
    · unfold seaf_repo_manager_repo_exists
      rw [hfind]
      simp [hpend]
  · intro mgr r s l hpend
    simp [seaf_repo_manager_get_repo_list, List.mem_filter, hpend]
  · intro mgr id r hlen hclosest hpre
    unfold seaf_repo_manager_get_repo_prefix
    rw [if_neg (by omega), hclosest]
    simp [hpre]
    exact List.isPrefixOf_iff_prefix.mp hpre
  · intro mgr id hne
    unfold seaf_repo_manager_repo_exists_prefix avl_search_closest
    cases hf : mgr.repo_tree.find? (fun r => strcmp_le id.toList r.id.toList) with
    | some r => rfl
    | none =>
        cases hl : mgr.repo_tree.getLast? with
        | some r => rfl
        | none => exact absurd (List.getLast?_eq_none_iff.mp hl) hne

theorem delete_pending_hidden_except_prefix_lookups_witness :
    ( seaf_repo_manager_get_repo mgrC2 repoC2.id = none ∧
      seaf_repo_manager_repo_exists mgrC2 repoC2.id = false) ∧
    repoC2 ∉ seaf_repo_manager_get_repo_list mgrC2 0 0 ∧
     seaf_repo_manager_get_repo_prefix mgrC2 repoC2.id = some repoC2 ∧
     seaf_repo_manager_repo_exists_prefix mgrC2 repoC2.id = true :=
  ⟨delete_pending_hidden_except_prefix_lookups.1 mgrC2 repoC2.id repoC2
      (by decide) rfl,
   delete_pending_hidden_except_prefix_lookups.2.1 mgrC2 repoC2 0 0 rfl,
   delete_pending_hidden_except_prefix_lookups.2.2.1 mgrC2 repoC2.id repoC2
      (by decide) (by decide) (by decide),
   delete_pending_hidden_except_prefix_lookups.2.2.2 mgrC2 repoC2.id
      (by decide)⟩

/-- C10: any id of 37 or more characters is rejected by
seaf_repo_manager_get_repo and seaf_repo_manager_get_repo_prefix before the
registry is consulted — the result is NULL for every registry content, so
only ids of at most 36 characters can ever match a repository. -/
theorem long_id_lookups_return_none (mgr : SeafRepoManager) (id : String)
    (h : 37 ≤ id.length) :
    seaf_repo_manager_get_repo mgr id = none ∧
     seaf_repo_manager_get_repo_prefix mgr id = none := by
  constructor
  · unfold seaf_repo_manager_get_repo
    rw [if_pos h]
  · unfold seaf_repo_manager_get_repo_prefix
    rw [if_pos h]

theorem long_id_lookups_return_none_witness :
    seaf_repo_manager_get_repo mgrC2
        "aaaaaaaa-aaaa-aaaa-aaaa-aaaaaaaaaaaa1" = none ∧
     seaf_repo_manager_get_repo_prefix mgrC2
        "aaaaaaaa-aaaa-aaaa-aaaa-aaaaaaaaaaaa1" = none :=
  long_id_lookups_return_none mgrC2 "aaaaaaaa-aaaa-aaaa-aaaa-aaaaaaaaaaaa1"
    (by decide)

/- The delete operations remove_repo_ondisk can issue. -/
inductive DelOp where
  | repoRow
  | deletedRepoRow
  | indexFile
  | branchRow (name : String)
  | propertyRows
  | passwdRow
  | keysRow
  | mergeInfoRow
  deriving DecidableEq, Repr

/- repo-mgr.c:1922-1981: the sequence of delete operations, in program order.
   The DELETE on the Repo table comes first — the code comments it as the
   "commit point" — and `repoRowOk` is its outcome: on failure the function
   jumps to `out` and issues nothing else.  After it come the tombstone row,
   the index file, one branch row per branch (`branch_names` is the list the
   branch store returns), the property rows and the passwd/keys/merge rows. -/
def remove_repo_ondisk (branch_names : List String) (repoRowOk : Bool) :
    List DelOp :=
  if repoRowOk then
    DelOp.repoRow :: DelOp.deletedRepoRow :: DelOp.indexFile ::
      (branch_names.map DelOp.branchRow ++
        [DelOp.propertyRows, DelOp.passwdRow, DelOp.keysRow, DelOp.mergeInfoRow])
  else [DelOp.repoRow]

/-- C6 counterexample: purging a repository with branches `local` and `master`
issues the Repo-table (registry) deletion first and the MergeInfo deletion
last, so the registry row is not removed last — it is removed before the
index file, the branch rows and the property/key/merge rows, contradicting
the claimed order. -/
theorem remove_repo_ondisk_registry_row_first_cex :
    (remove_repo_ondisk ["local", "master"] true).head? = some DelOp.repoRow ∧
    (remove_repo_ondisk ["local", "master"] true).getLast? =
      some DelOp.mergeInfoRow ∧
    DelOp.repoRow ≠ DelOp.mergeInfoRow := by
  decide

/-- C6 (amended): remove_repo_ondisk removes the registry (Repo table) row
first, not last; its removal is the operation's commit point — when that
DELETE fails nothing else is deleted, and when it succeeds the tombstone row,
the index file, the branch rows and the property/passwd/keys/merge rows are
deleted after it, in that order. -/
theorem remove_repo_ondisk_registry_row_first
    (branch_names : List String) (repoRowOk : Bool) :
    (remove_repo_ondisk branch_names repoRowOk).head? = some DelOp.repoRow ∧
    (repoRowOk = false →
      remove_repo_ondisk branch_names repoRowOk = [DelOp.repoRow]) ∧
    (repoRowOk = true →
      remove_repo_ondisk branch_names repoRowOk =
        DelOp.repoRow :: DelOp.deletedRepoRow :: DelOp.indexFile ::
          (branch_names.map DelOp.branchRow ++
            [DelOp.propertyRows, DelOp.passwdRow, DelOp.keysRow,
             DelOp.mergeInfoRow])) := by
  cases repoRowOk <;> simp [remove_repo_ondisk]

theorem remove_repo_ondisk_registry_row_first_witness :
    remove_repo_ondisk ["local"] true =
      DelOp.repoRow :: DelOp.deletedRepoRow :: DelOp.indexFile ::
        (["local"].map DelOp.branchRow ++
          [DelOp.propertyRows, DelOp.passwdRow, DelOp.keysRow,
           DelOp.mergeInfoRow]) :=
  (remove_repo_ondisk_registry_row_first ["local"] true).2.2 rfl

/- One row of the RepoTmpToken table. -/
structure TmpTokenRow where
  repo_id : String
  peer_id : String
  token : String
  timestamp : Nat
  deriving DecidableEq, Repr

/- REPLACE INTO RepoTmpToken: the table's primary key is (repo_id, peer_id)
   (repo-mgr.c:2551-2553), so the new row replaces any row of the pair. -/
def replace_tmp_token (db : List TmpTokenRow) (row : TmpTokenRow) :
    List TmpTokenRow :=
  row :: db.filter (fun r => !(r.repo_id == row.repo_id && r.peer_id == row.peer_id))

/- repo-mgr.c:2169-2192.  `token` is the uuid gen_uuid produced, `now` the
   wall-clock time stored with the row, `sqlOk` the outcome of the REPLACE. -/
def generate_tmp_token (db : List TmpTokenRow) (repo_id peer_id token : String)
    (now : Nat) (sqlOk : Bool) : Option String × List TmpTokenRow :=
  if sqlOk then
    (some token,
     replace_tmp_token db
       { repo_id := repo_id, peer_id := peer_id, token := token, timestamp := now })
  else (none, db)

/- repo-mgr.c:2194-2219: look for a row matching repo, peer and token; when
   one exists, delete every RepoTmpToken row of the (repo, peer) pair and
   return 1, else return 0.  The SELECT reads the stored timestamp but the
   function never compares it with the current time — it takes no clock
   input at all. -/
def verify_tmp_token (db : List TmpTokenRow) (repo_id peer_id token : String) :
    Bool × List TmpTokenRow :=
  if db.any (fun r =>
      r.repo_id == repo_id && r.peer_id == peer_id && r.token == token) then
    (true, db.filter (fun r => !(r.repo_id == repo_id && r.peer_id == peer_id)))
  else (false, db)

/-- C8 counterexample: a token generated with stored timestamp 0 still
verifies successfully; verify_tmp_token takes no clock input and never
compares the stored timestamp with the current time, so however much time has
passed since generation the verification succeeds — no time bound is
enforced, contradicting the claim that a token past its time bound never
verifies. -/
theorem verify_tmp_token_no_time_bound_cex :
    (generate_tmp_token [] "r" "p" "t" 0 true).1 = some "t" ∧
    (verify_tmp_token (generate_tmp_token [] "r" "p" "t" 0 true).2
        "r" "p" "t").1 = true := by
  decide

/-- C8 (amended): temporary tokens are one-shot — a successful verification
deletes every RepoTmpToken row of the (repo, peer) pair, so verifying the
same token a second time fails — but they are not time-bounded: the
verification result is unchanged under any rewriting of the stored
timestamps, because verify_tmp_token never reads the clock. -/
theorem tmp_token_one_shot_and_untimed
    (db : List TmpTokenRow) (repo_id peer_id token : String) :
    ((verify_tmp_token db repo_id peer_id token).1 = true →
      (verify_tmp_token (verify_tmp_token db repo_id peer_id token).2
        repo_id peer_id token).1 = false) ∧
    (∀ f : Nat → Nat,
      (verify_tmp_token
          (db.map (fun r => { r with timestamp := f r.timestamp }))
          repo_id peer_id token).1 =
        (verify_tmp_token db repo_id peer_id token).1) := by
  constructor
  · intro h1
    have h2 : (verify_tmp_token db repo_id peer_id token).2 =
        db.filter (fun r => !(r.repo_id == repo_id && r.peer_id == peer_id)) := by
      unfold verify_tmp_token at h1 ⊢
      split at h1
      case isTrue hany => rw [if_pos hany]
      case isFalse => simp at h1
    rw [h2]
    unfold verify_tmp_token
    rw [if_neg]
    intro hcontra
    rw [List.any_eq_true] at hcontra
    obtain ⟨r, hr, hpred⟩ := hcontra
    rw [List.mem_filter] at hr
    obtain ⟨-, hkeep⟩ := hr
    simp at hkeep hpred
    exact hkeep.elim (fun h => h hpred.1.1) (fun h => h hpred.1.2)
  · intro f
    unfold verify_tmp_token
    rw [List.any_map]
    have hcond : (db.any
        ((fun r => r.repo_id == repo_id && r.peer_id == peer_id && r.token == token) ∘
          (fun r : TmpTokenRow =>
            ({ repo_id := r.repo_id, peer_id := r.peer_id,
               token := r.token, timestamp := f r.timestamp } : TmpTokenRow)))) =
        db.any (fun r =>
          r.repo_id == repo_id && r.peer_id == peer_id && r.token == token) := rfl
    rw [hcond]
    cases h : db.any (fun r =>
        r.repo_id == repo_id && r.peer_id == peer_id && r.token == token) <;>
      simp [h]

theorem tmp_token_one_shot_and_untimed_witness :
    (verify_tmp_token
        (verify_tmp_token [{ repo_id := "r", peer_id := "p", token := "t",
                             timestamp := 5 }] "r" "p" "t").2
        "r" "p" "t").1 = false :=
  (tmp_token_one_shot_and_untimed
      [{ repo_id := "r", peer_id := "p", token := "t", timestamp := 5 }]
      "r" "p" "t").1 (by decide)

/- repo-mgr.c:349-358: reads path[strlen(path) - 1] with no guard; for the
   empty string this indexes path[-1], an out-of-bounds read, modelled as
   `none`.  For non-empty paths the read byte is the last character. -/
def has_trailing_space (path : String) : Option Bool :=
  match path.toList.getLast? with
  | none => none
  | some c => some (c == ' ')

/- repo-mgr.c:521-523 (and 703-705): seaf_repo_index_add skips every leading
   '/' of its path argument before handing it to add_recursive. -/
def strip_leading_slashes (path : String) : String :=
  String.mk (path.toList.dropWhile (fun c => c == '/'))

/- repo-mgr.c:587: the relative path seaf_repo_index_worktree_files passes to
   add_recursive — the constant empty string. -/
def index_worktree_files_start_path : String := ""

/-- C9: has_trailing_space is total (the indexed byte is in bounds) exactly
for non-empty paths, and both callers reach it with the empty path:
seaf_repo_index_worktree_files starts add_recursive at the constant empty
relative path, and seaf_repo_index_add's leading-slash stripping turns the
path "/" into the empty string — for those inputs the read of
path[strlen(path) - 1] is out of bounds. -/
theorem has_trailing_space_oob_on_empty_path :
    (∀ p : String, p ≠ "" → (has_trailing_space p).isSome = true) ∧
    has_trailing_space index_worktree_files_start_path = none ∧
    has_trailing_space (strip_leading_slashes "/") = none := by
  refine ⟨?_, rfl, rfl⟩
  intro p hp
  cases hl : p.toList.getLast? with
  | none =>
      exfalso
      apply hp
      have hdata : p.toList = [] := List.getLast?_eq_none_iff.mp hl
      cases p
      exact congrArg String.mk hdata
  | some c =>
      have hl2 : p.data.getLast? = some c := hl
      simp [has_trailing_space, hl2]

theorem has_trailing_space_oob_on_empty_path_witness :
    (has_trailing_space "a ").isSome = true :=
  has_trailing_space_oob_on_empty_path.1 "a " (by decide)

/- The lookup table "0123456789abcdef" of the hex conversion. -/
def hex_digits : List Char := "0123456789abcdef".toList

/- rawdata_to_hex (utils, outside this file) restricted to what the magic
   computation uses: each byte of the 16-byte key becomes two lowercase hex
   digits. -/
def byte_to_hex (b : Nat) : List Char :=
  [hex_digits.getD (b / 16) '0', hex_digits.getD (b % 16) '0']

def rawdata_to_hex (key : List Nat) : String :=
  String.mk ((key.map byte_to_hex).flatten)

/-- Modelled from the spec: CURRENT_ENC_VERSION comes from seafile-crypt.h
(outside this file); the spec's current version — the one that persists the
derived key and iv — is 1. -/
def CURRENT_ENC_VERSION : Nat := 1

/- repo-mgr.c:275-294.  seafile_generate_enc_key (the version-parameterized
   KDF over repo_id ++ passwd, from seafile-crypt.c, outside this file) is
   passed in as `kdf`; it returns the 16-byte key (the iv plays no part in
   the magic).  Result 0 means the recomputed magic matches the stored
   one, -1 a mismatch. -/
def seaf_repo_verify_passwd (kdf : String → Nat → List Nat) (repo : SeafRepo)
    (passwd : String) : Int :=
  if rawdata_to_hex (kdf (repo.id ++ passwd) repo.enc_version) = repo.magic then 0
  else -1

/- repo-mgr.c:1624-1641: derive the key from repo_id ++ passwd at
   CURRENT_ENC_VERSION and store its hex as the repo's magic. -/
def seaf_repo_generate_magic (kdf : String → Nat → List Nat) (repo : SeafRepo)
    (passwd : String) : SeafRepo :=
  { repo with
    magic := rawdata_to_hex (kdf (repo.id ++ passwd) CURRENT_ENC_VERSION) }

lemma hex_digit_inj (i j : Nat) (hi : i < 16) (hj : j < 16)
    (h : hex_digits.getD i '0' = hex_digits.getD j '0') : i = j := by
  have hfin : ∀ i' : Fin 16, ∀ j' : Fin 16,
      hex_digits.getD i'.val '0' = hex_digits.getD j'.val '0' → i' = j' := by
    decide
  simpa using congrArg Fin.val (hfin ⟨i, hi⟩ ⟨j, hj⟩ h)

lemma byte_to_hex_inj {a b : Nat} (ha : a < 256) (hb : b < 256)
    (h : byte_to_hex a = byte_to_hex b) : a = b := by
  unfold byte_to_hex at h
  simp only [List.cons.injEq, and_true] at h
  obtain ⟨h1, h2⟩ := h
  have e1 : a / 16 = b / 16 :=
    hex_digit_inj _ _ (by omega) (by omega) h1
  have e2 : a % 16 = b % 16 :=
    hex_digit_inj _ _ (by omega) (by omega) h2
  omega

lemma rawdata_to_hex_data (l : List Nat) :
    (rawdata_to_hex l).data = (l.map byte_to_hex).flatten := rfl

lemma rawdata_to_hex_inj : ∀ l1 l2 : List Nat, (∀ b ∈ l1, b < 256) →
    (∀ b ∈ l2, b < 256) → rawdata_to_hex l1 = rawdata_to_hex l2 → l1 = l2 := by
  intro l1
  induction l1 with
  | nil =>
      intro l2 _ _ h
      cases l2 with
      | nil => rfl
      | cons b t2 =>
          have hd := congrArg String.data h
          rw [rawdata_to_hex_data, rawdata_to_hex_data] at hd
          simp [byte_to_hex] at hd
  | cons a t ih =>
      intro l2 h1 h2 h
      cases l2 with
      | nil =>
          have hd := congrArg String.data h
          rw [rawdata_to_hex_data, rawdata_to_hex_data] at hd
          simp [byte_to_hex] at hd
      | cons b t2 =>
          have hd := congrArg String.data h
          rw [rawdata_to_hex_data, rawdata_to_hex_data] at hd
          simp only [List.map_cons, List.flatten_cons, byte_to_hex,
            List.cons_append, List.nil_append, List.cons.injEq] at hd
          obtain ⟨e1, e2, e3⟩ := hd
          have hab : a = b := by
            apply byte_to_hex_inj (h1 a (by simp)) (h2 b (by simp))
            simp only [byte_to_hex]
            rw [e1, e2]
          have htail : rawdata_to_hex t = rawdata_to_hex t2 :=
            congrArg String.mk e3
          have ht : t = t2 :=
            ih t2 (fun x hx => h1 x (by simp [hx]))
              (fun x hx => h2 x (by simp [hx])) htail
          rw [hab, ht]

/-- C5: after seaf_repo_generate_magic with passphrase `pw`, verification
with `pw2` succeeds (returns 0) exactly when the key the KDF derives from
repo_id ++ pw2 equals the key it derives from repo_id ++ pw — stated for a
repository whose encryption version equals the version generate_magic
derives at, and for KDF outputs that are byte sequences (each element
below 256), as the C key buffer guarantees. -/
theorem verify_passwd_iff_same_derived_key
    (kdf : String → Nat → List Nat) (repo : SeafRepo) (pw pw2 : String)
    (h1 : ∀ b ∈ kdf (repo.id ++ pw) CURRENT_ENC_VERSION, b < 256)
    (h2 : ∀ b ∈ kdf (repo.id ++ pw2) CURRENT_ENC_VERSION, b < 256)
    (hv : repo.enc_version = CURRENT_ENC_VERSION) :
    (seaf_repo_verify_passwd kdf (seaf_repo_generate_magic kdf repo pw) pw2 = 0 ↔
      kdf (repo.id ++ pw2) CURRENT_ENC_VERSION =
        kdf (repo.id ++ pw) CURRENT_ENC_VERSION) := by
  constructor
  · intro h
    by_cases heq : rawdata_to_hex (kdf (repo.id ++ pw2) CURRENT_ENC_VERSION) =
        rawdata_to_hex (kdf (repo.id ++ pw) CURRENT_ENC_VERSION)
    · exact rawdata_to_hex_inj _ _ h2 h1 heq
    · exfalso
      simp [seaf_repo_verify_passwd, seaf_repo_generate_magic, hv, heq] at h
  · intro h
    simp [seaf_repo_verify_passwd, seaf_repo_generate_magic, hv, h]

def kdfW : String → Nat → List Nat := fun s v => [(s.length + v) % 256]

def repoC5 : SeafRepo :=
  { id := "x", name := "n", desc := "d", encrypted := true,
    enc_version := 1, magic := "", no_local_history := false,
    head := none, email := none, delete_pending := false }

theorem verify_passwd_iff_same_derived_key_witness :
    seaf_repo_verify_passwd kdfW (seaf_repo_generate_magic kdfW repoC5 "a")
        "b" = 0 ↔
      kdfW (repoC5.id ++ "b") CURRENT_ENC_VERSION =
        kdfW (repoC5.id ++ "a") CURRENT_ENC_VERSION :=
  verify_passwd_iff_same_derived_key kdfW repoC5 "a" "b" (by decide) (by decide)
    rfl

/- GLib pattern matching (g_pattern_match_string) restricted to what the
   ignore table uses: a '*' matches any run of characters, a '?' any single
   character, anything else itself. -/
def glob_match : List Char → List Char → Bool
  | [], [] => true
  | [], _ :: _ => false
  | '*' :: ps, [] => glob_match ps []
  | '*' :: ps, c :: ss => glob_match ps (c :: ss) || glob_match ('*' :: ps) ss
  | '?' :: _, [] => false
  | '?' :: ps, _ :: ss => glob_match ps ss
  | _ :: _, [] => false
  | p :: ps, c :: ss => p == c && glob_match ps ss
termination_by ps s => (ps.length, s.length)

/- repo-mgr.c:45-66: the fixed ignore glob table. -/
def ignore_table : List String :=
  ["*~", "*#", "*.tmp", "*.TMP", "~$*.doc", "~$*.docx", "~$*.xls",
   "~$*.xlsx", "~$*.ppt", "~$*.pptx", "Thumbs.db", ".DS_Store"]

/- repo-mgr.c:316: characters illegal in filenames under windows. -/
def illegals : List Char :=
  ['\\', '/', ':', '*', '?', '"', '<', '>', '|', '\x08', '\t']

/- repo-mgr.c:296-334: a name is ignored when it matches a pattern of the
   ignore table, contains one of the illegal characters, or contains a
   control byte 1..31. -/
def should_ignore (filename : String) : Bool :=
  ignore_table.any (fun p => glob_match p.toList filename.toList) ||
  illegals.any (fun c => filename.toList.contains c) ||
  (List.range 31).any (fun i => filename.toList.contains (Char.ofNat (i + 1)))

/- A model worktree: a directory's entries are (name, node) pairs in readdir
   order; stat always succeeds on the model tree. -/
inductive FSNode where
  | file (oid : Nat)
  | dir (entries : List (String × FSNode))

/- An index insertion performed by the walk: a regular file added via
   add_to_index, or an empty-dir sentinel added via add_empty_dir_to_index. -/
inductive Added where
  | file (path : List String) (oid : Nat)
  | emptyDir (path : List String)
  deriving DecidableEq, Repr

/- The last character of a name is a space — what has_trailing_space reads
   for a non-empty path. -/
def comp_trailing_space (s : String) : Bool :=
  match s.toList.getLast? with
  | none => false
  | some c => c == ' '

/- has_trailing_space applied to the '/'-joined repo-relative path given by
   its component list: the joined path's last byte is the last byte of the
   last component.  For the empty component list (the callers' starting
   path "") the C read is out of bounds — see has_trailing_space; the walk
   model takes the benign outcome false there. -/
def path_trailing_space (comps : List String) : Bool :=
  match comps.getLast? with
  | none => false
  | some s => comp_trailing_space s

/- The n counter of repo-mgr.c:403-408: how many directory entries survive
   should_ignore. -/
def kept_count (entries : List (String × FSNode)) : Nat :=
  (entries.filter (fun e => !should_ignore e.1)).length

mutual
/- repo-mgr.c:360-432 on the model worktree: the list of index insertions
   the walk performs, in order.  A path with a trailing space is skipped
   outright; a regular file is added; a directory is scanned entry by entry,
   and an empty-dir sentinel is added when no entry survived should_ignore
   and ignore_empty_dir is clear. -/
def add_recursive (node : FSNode) (path : List String)
    (ignore_empty_dir : Bool) : List Added :=
  if path_trailing_space path then []
  else
    match node with
    | FSNode.file oid => [Added.file path oid]
    | FSNode.dir entries =>
        add_entries entries path ignore_empty_dir ++
        (if kept_count entries = 0 && !ignore_empty_dir then
          [Added.emptyDir path] else [])

/- The g_dir_read_name loop of repo-mgr.c:404-413: entries whose name
   should_ignore rejects are skipped, the others are recursed into at
   path/name. -/
def add_entries (entries : List (String × FSNode)) (path : List String)
    (ignore_empty_dir : Bool) : List Added :=
  match entries with
  | [] => []
  | (n, child) :: rest =>
      (if should_ignore n then []
       else add_recursive child (path ++ [n]) ignore_empty_dir) ++
      add_entries rest path ignore_empty_dir
end

/- Lookup of a regular file in the model worktree by its component path
   (first matching entry per directory, as a real filesystem has unique
   names). -/
def find_file (node : FSNode) : List String → Option Nat
  | [] =>
      match node with
      | FSNode.file oid => some oid
      | FSNode.dir _ => none
  | c :: rest =>
      match node with
      | FSNode.file _ => none
      | FSNode.dir entries =>
          match entries.find? (fun e => e.1 == c) with
          | some e => find_file e.2 rest
          | none => none

def nodup_names (entries : List (String × FSNode)) : Bool :=
  match entries with
  | [] => true
  | (n, _) :: rest => !(rest.any (fun e => e.1 == n)) && nodup_names rest

mutual
/- Well-formed worktree: each directory's entry names are distinct, as on a
   real filesystem. -/
def wf_node : FSNode → Bool
  | FSNode.file _ => true
  | FSNode.dir entries => nodup_names entries && wf_entries entries

def wf_entries : List (String × FSNode) → Bool
  | [] => true
  | (_, child) :: rest => wf_node child && wf_entries rest
end

lemma measure_ind {α : Sort _} (f : α → Nat) (P : α → Prop)
    (h : ∀ x, (∀ y, f y < f x → P y) → P x) : ∀ x, P x := by
  have H : ∀ n, ∀ x, f x < n → P x := by
    intro n
    induction n with
    | zero => intro x hx; omega
    | succ m ihm =>
        intro x hx
        exact h x (fun y hy => ihm y (by omega))
  intro x
  exact h x (fun y hy => H (f x) y hy)

lemma add_recursive_trailing (node : FSNode) (path : List String) (ign : Bool)
    (h : path_trailing_space path = true) :
    add_recursive node path ign = [] := by
  cases node <;> simp [add_recursive, h]

lemma add_recursive_file (oid : Nat) (path : List String) (ign : Bool)
    (h : path_trailing_space path = false) :
    add_recursive (FSNode.file oid) path ign = [Added.file path oid] := by
  simp [add_recursive, h]

lemma add_recursive_dir (entries : List (String × FSNode)) (path : List String)
    (ign : Bool) (h : path_trailing_space path = false) :
    add_recursive (FSNode.dir entries) path ign =
      add_entries entries path ign ++
        (if kept_count entries = 0 && !ign then [Added.emptyDir path] else []) := by
  simp [add_recursive, h]

lemma mem_add_entries (entries : List (String × FSNode)) (path : List String)
    (ign : Bool) (x : Added) :
    x ∈ add_entries entries path ign ↔
      ∃ n child, (n, child) ∈ entries ∧ should_ignore n = false ∧
        x ∈ add_recursive child (path ++ [n]) ign := by
  induction entries with
  | nil => simp [add_entries]
  | cons e rest ih =>
      obtain ⟨n, child⟩ := e
      rw [add_entries]
      rw [List.mem_append, ih]
      by_cases hig : should_ignore n = true
      · rw [if_pos hig]
        simp only [List.not_mem_nil, false_or, List.mem_cons]
        constructor
        · rintro ⟨m, c, hmem, hig', hx⟩
          exact ⟨m, c, Or.inr hmem, hig', hx⟩
        · rintro ⟨m, c, heq | hmem, hig', hx⟩
          · exfalso
            rw [Prod.mk.injEq] at heq
            rw [heq.1] at hig'
            rw [hig] at hig'
            cases hig'
          · exact ⟨m, c, hmem, hig', hx⟩
      · rw [if_neg hig]
        rw [Bool.not_eq_true] at hig
        simp only [List.mem_cons]
        constructor
        · rintro (hx | ⟨m, c, hmem, hig', hx⟩)
          · exact ⟨n, child, Or.inl rfl, hig, hx⟩
          · exact ⟨m, c, Or.inr hmem, hig', hx⟩
        · rintro ⟨m, c, heq | hmem, hig', hx⟩
          · rw [Prod.mk.injEq] at heq
            obtain ⟨h1, h2⟩ := heq
            subst h1 h2
            exact Or.inl hx
          · exact Or.inr ⟨m, c, hmem, hig', hx⟩

lemma sizeOf_child_lt {n : String} {child : FSNode}
    {entries : List (String × FSNode)} (h : (n, child) ∈ entries) :
    sizeOf child < sizeOf (FSNode.dir entries) := by
  have h1 := List.sizeOf_lt_of_mem h
  have h2 : sizeOf (n, child) = 1 + sizeOf n + sizeOf child := rfl
  have h3 : sizeOf (FSNode.dir entries) = 1 + sizeOf entries := by
    simp [FSNode.dir.sizeOf_spec]
  omega

lemma wf_entries_mem {entries : List (String × FSNode)} {n : String}
    {child : FSNode} (hwf : wf_entries entries = true)
    (hmem : (n, child) ∈ entries) : wf_node child = true := by
  induction entries with
  | nil => cases hmem
  | cons e rest ih =>
      obtain ⟨m, c⟩ := e
      rw [wf_entries, Bool.and_eq_true] at hwf
      rcases List.mem_cons.mp hmem with heq | hmem'
      · rw [Prod.mk.injEq] at heq
        rw [heq.2]
        exact hwf.1
      · exact ih hwf.2 hmem'

lemma find?_name_of_nodup {entries : List (String × FSNode)} {n : String}
    {child : FSNode} (hnd : nodup_names entries = true)
    (hmem : (n, child) ∈ entries) :
    entries.find? (fun e => e.1 == n) = some (n, child) := by
  induction entries with
  | nil => cases hmem
  | cons e rest ih =>
      obtain ⟨m, c⟩ := e
      rw [nodup_names, Bool.and_eq_true] at hnd
      obtain ⟨hnone, hnd'⟩ := hnd
      rcases List.mem_cons.mp hmem with heq | hmem'
      · rw [Prod.mk.injEq] at heq
        obtain ⟨h1, h2⟩ := heq
        subst h1 h2
        simp [List.find?_cons]
      · by_cases hmn : m = n
        · exfalso
          subst hmn
          rw [Bool.not_eq_true', List.any_eq_false] at hnone
          have hcon := hnone (m, child) hmem'
          simp at hcon
        · rw [List.find?_cons]
          have : ((m, c).1 == n) = false := by simp [hmn]
          rw [this]
          exact ih hnd' hmem'

lemma path_trailing_space_append (path : List String) (n : String) :
    path_trailing_space (path ++ [n]) = comp_trailing_space n := by
  rw [path_trailing_space]
  rw [List.getLast?_append]
  rfl

theorem add_recursive_file_mem :
    ∀ (node : FSNode) (path : List String) (ign : Bool) (p : List String)
      (oid : Nat), wf_node node = true → path_trailing_space path = false →
      (Added.file p oid ∈ add_recursive node path ign ↔
        ∃ q, p = path ++ q ∧ find_file node q = some oid ∧
          ∀ c ∈ q, should_ignore c = false ∧ comp_trailing_space c = false) := by
  apply measure_ind (fun node : FSNode => sizeOf node)
  intro node IH path ign p oid hwf hpath
  cases node with
  | file oid' =>
      rw [add_recursive_file oid' path ign hpath]
      constructor
      · intro hmem
        rcases List.mem_singleton.mp hmem with heq
        rw [Added.file.injEq] at heq
        obtain ⟨h1, h2⟩ := heq
        subst h1 h2
        exact ⟨[], by simp, by rw [find_file], by simp⟩
      · rintro ⟨q, hp, hf, hq⟩
        cases q with
        | nil =>
            rw [find_file] at hf
            rw [Option.some.injEq] at hf
            subst hf
            simp [hp]
        | cons c rest =>
            rw [find_file] at hf
            cases hf
  | dir entries =>
      rw [add_recursive_dir entries path ign hpath]
      rw [wf_node, Bool.and_eq_true] at hwf
      obtain ⟨hnd, hwfe⟩ := hwf
      have hnotempty : Added.file p oid ∈
          (if kept_count entries = 0 && !ign then [Added.emptyDir path] else []) ↔
            False := by
        split <;> simp
      rw [List.mem_append, hnotempty, or_false, mem_add_entries]
      constructor
      · rintro ⟨n, child, hmem, hig, hx⟩
        by_cases hts : comp_trailing_space n = true
        · exfalso
          rw [add_recursive_trailing child (path ++ [n]) ign
            (by rw [path_trailing_space_append]; exact hts)] at hx
          cases hx
        · rw [Bool.not_eq_true] at hts
          have hiff := IH child (sizeOf_child_lt hmem) (path ++ [n]) ign p oid
            (wf_entries_mem hwfe hmem)
            (by rw [path_trailing_space_append]; exact hts)
          obtain ⟨q', hp, hf, hq⟩ := hiff.mp hx
          refine ⟨n :: q', by rw [hp, List.append_assoc]; rfl, ?_, ?_⟩
          · rw [find_file]
            rw [find?_name_of_nodup hnd hmem]
            exact hf
          · intro c hc
            rcases List.mem_cons.mp hc with heq | hmem'
            · subst heq
              exact ⟨hig, hts⟩
            · exact hq c hmem'
      · rintro ⟨q, hp, hf, hq⟩
        cases q with
        | nil =>
            rw [find_file] at hf
            cases hf
        | cons n q' =>
            rw [find_file] at hf
            cases hfind : entries.find? (fun e => e.1 == n) with
            | none => rw [hfind] at hf; cases hf
            | some e =>
                rw [hfind] at hf
                have he1 : e.1 = n := by
                  have hps := List.find?_some hfind
                  simpa using hps
                have hmem : (n, e.2) ∈ entries := by
                  have := List.mem_of_find?_eq_some hfind
                  rw [← he1]
                  simpa using this
                have hn := hq n (List.mem_cons_self n q')
                have hiff := IH e.2 (sizeOf_child_lt hmem) (path ++ [n]) ign p
                  oid (wf_entries_mem hwfe hmem)
                  (by rw [path_trailing_space_append, hn.2])
                refine ⟨n, e.2, hmem, hn.1, hiff.mpr ⟨q', ?_, hf, ?_⟩⟩
                · rw [hp, List.append_assoc]
                  rfl
                · intro c hc
                  exact hq c (List.mem_cons_of_mem n hc)

/-- C7: on a well-formed model worktree, the add walk started at the repo
root (add_recursive with should_ignore) inserts a regular file into the index
exactly when every path component on the way to it passes should_ignore (no
ignore-table glob match, no illegal character `\\ / : * ? " < > |` or
backspace or tab, no control byte 1..31) and no component ends in a space —
an entry whose name is ignored or whose path has a trailing space is skipped,
and every other regular file is added. -/
theorem add_recursive_adds_exactly_unfiltered_files
    (t : FSNode) (ign : Bool) (p : List String) (oid : Nat)
    (hwf : wf_node t = true) :
    Added.file p oid ∈ add_recursive t [] ign ↔
      (find_file t p = some oid ∧
        ∀ c ∈ p, should_ignore c = false ∧ comp_trailing_space c = false) := by
  have h := add_recursive_file_mem t [] ign p oid hwf rfl
  rw [h]
  constructor
  · rintro ⟨q, hp, hf, hq⟩
    simp only [List.nil_append] at hp
    subst hp
    exact ⟨hf, hq⟩
  · rintro ⟨hf, hq⟩
    exact ⟨p, by simp, hf, hq⟩

/- A sample worktree exercising the witness: one plain file, an ignored
   name, a trailing-space name, and a subdirectory. -/
def fsW : FSNode :=
  FSNode.dir
    [("bar.txt", FSNode.file 7), (".DS_Store", FSNode.file 1),
     ("foo ", FSNode.file 2),
     ("sub", FSNode.dir [("a:b", FSNode.file 3), ("ok.txt", FSNode.file 4)])]

theorem add_recursive_adds_exactly_unfiltered_files_witness :
    Added.file ["bar.txt"] 7 ∈ add_recursive fsW [] true ↔
      (find_file fsW ["bar.txt"] = some 7 ∧
        ∀ c ∈ ["bar.txt"], should_ignore c = false ∧
          comp_trailing_space c = false) :=
  add_recursive_adds_exactly_unfiltered_files fsW true ["bar.txt"] 7
    (by simp [fsW, wf_node, wf_entries, nodup_names])

end Seafile
